import Mathlib

/-!
Verification development for the test-console repository (src/trie.cpp,
src/trie.h, src/console.cpp, src/console.h).

The completion trie (`CommandTrie`), the line-edit / history / tab-completion
session loop (`TestConsole::getUserInputLine`) and the history recording in
`TestConsole::start` are embedded as executable Lean definitions, and the
spec's claims about them are proved or refuted below.

Modelling conventions:
- C++ strings are `List Char`.
- `TrieNode** children` (an array of `trie_node_size_` pointers, null for an
  absent child) is `List (Option TrieNode)`; position in the list is the
  alphabet index, `none` is a null pointer.
- Fallible operations return `Except TrieErr _`.  The source performs an
  unchecked `children[idx]` access; when `idx` is outside the array (which
  happens exactly when a character maps to the sentinel index 255, since a
  node never has more than 95 children) that access is undefined behaviour
  in C++ and is modelled as `TrieErr.invalidCharAccess`.  The
  `std::runtime_error` thrown by `getLongestString` is `TrieErr.corruption`.
-/

/-- Faults a trie operation can hit: an out-of-bounds child access caused by
an invalid character (undefined behaviour in the source, which has no check),
or the structural-corruption `std::runtime_error` thrown by
`getLongestString`. -/
inductive TrieErr where
  | invalidCharAccess
  | corruption
deriving DecidableEq

/-- Mirror of `struct TrieNode` (trie.h): child pointer array, terminal flag,
cached word text. -/
inductive TrieNode : Type where
  | mk : List (Option TrieNode) → Bool → List Char → TrieNode

/-- Mirror of the `children` field. -/
def TrieNode.children : TrieNode → List (Option TrieNode)
  | .mk cs _ _ => cs

/-- Mirror of the `is_terminal` field. -/
def TrieNode.is_terminal : TrieNode → Bool
  | .mk _ t _ => t

/-- Mirror of the `word_to_here` field. -/
def TrieNode.word_to_here : TrieNode → List Char
  | .mk _ _ w => w

/-- Mirror of `CommandTrie::createTrieNode`: `trie_node_size_` null children,
not terminal, empty cached word. -/
def createTrieNode (K : Nat) : TrieNode :=
  .mk (List.replicate K none) false []

/-- Mirror of `CommandTrie::getLiveChildren`, which returns the indices of the
non-null children in increasing index order; we return the child nodes
themselves, in that same order. -/
def getLiveChildren (cs : List (Option TrieNode)) : List TrieNode :=
  cs.filterMap id

mutual

/-- Mirror of `CommandTrie::getLongestString` (trie.cpp:175-195): a terminal
node reports one candidate and its own cached word; otherwise zero live
children is the structural-corruption throw (`none`), exactly one live child
is followed recursively, and more than one live child reports the count and
this node's cached word. -/
def getLongestString : TrieNode → Option (Nat × List Char × TrieNode)
  | .mk cs t w =>
    if t then some (1, w, .mk cs t w)
    else if (getLiveChildren cs).length = 0 then none
    else if (getLiveChildren cs).length = 1 then glsDescend cs
    else some ((getLiveChildren cs).length, w, .mk cs t w)

/-- Descend into the first live child (`node->children[live_children[0]]` in
the source). -/
def glsDescend : List (Option TrieNode) → Option (Nat × List Char × TrieNode)
  | [] => none
  | none :: rest => glsDescend rest
  | some n :: _ => getLongestString n

end

mutual

/-- Mirror of `CommandTrie::getPossibleCommands` (trie.cpp:208-216): collect
the cached word of this node if terminal, then of every terminal node below,
visiting live children in increasing index order. -/
def getPossibleCommands : TrieNode → List (List Char)
  | .mk cs t w => (if t then [w] else []) ++ gpcChildren cs

/-- Fold `getPossibleCommands` over the live children in index order. -/
def gpcChildren : List (Option TrieNode) → List (List Char)
  | [] => []
  | none :: rest => gpcChildren rest
  | some n :: rest => getPossibleCommands n ++ gpcChildren rest

end

/-- Recursive worker for `CommandTrie::insert` (trie.cpp:50-79).  `here` is
the `word_to_here` accumulator.  Each step writes `word_to_here`, looks the
child slot up at the indexed position (an out-of-bounds position is the
unchecked `children[idx]` access of the source, undefined behaviour there),
creates the child if null, and descends; the final node is marked terminal
with the full word. -/
def insertNode (K : Nat) (idxOf : Char → Nat) :
    TrieNode → List Char → List Char → Except TrieErr TrieNode
  | .mk cs _ _, here, [] => .ok (.mk cs true here)
  | .mk cs t _, here, c :: rest =>
    match cs.get? (idxOf c) with
    | none => .error .invalidCharAccess
    | some och =>
      match insertNode K idxOf (och.getD (createTrieNode K)) (here ++ [c]) rest with
      | .error e => .error e
      | .ok newChild => .ok (.mk (cs.set (idxOf c) (some newChild)) t here)

/-- Mirror of the `CommandTrie` class state (trie.h): root pointer (named
with a trailing underscore in the source), the ASCII-to-index vector, the
index-to-char vector, and the child-array size. -/
structure CommandTrie where
  trie_root : Option TrieNode
  index_ : List Nat
  index_to_char_ : List Char
  trie_node_size_ : Nat

/-- Mirror of `CommandTrie::buildIndex` (trie.cpp:137-160) building `index_`:
32 invalid entries for codes 0-31, then for each code 32-126 either the
running count of valid characters seen so far (the `idx++` counter) or the
invalid sentinel 255. -/
def buildIndexList (valid : List Char) : List Nat :=
  List.replicate 32 255 ++ (List.range 95).map (fun i =>
    if valid.contains (Char.ofNat (32 + i)) then
      ((List.range i).filter (fun j => valid.contains (Char.ofNat (32 + j)))).length
    else 255)

/-- Mirror of `buildIndex` building `index_to_char_`: the valid characters
among codes 32-126, in increasing code order. -/
def buildIndexToChar (valid : List Char) : List Char :=
  (List.range 95).filterMap (fun i =>
    if valid.contains (Char.ofNat (32 + i)) then some (Char.ofNat (32 + i)) else none)

/-- Mirror of the `CommandTrie` constructor: null root, index built from the
valid-character set, `trie_node_size_` = number of valid characters. -/
def mkCommandTrie (valid : List Char) : CommandTrie :=
  { trie_root := none
    index_ := buildIndexList valid
    index_to_char_ := buildIndexToChar valid
    trie_node_size_ := (buildIndexToChar valid).length }

/-- Mirror of `CommandTrie::index` (trie.h:114-118): look the character's code
up in `index_`, 255 when out of range.  `insert` and `find` use the unchecked
`index_[c]`, which agrees with this for codes below 127 and is undefined
behaviour otherwise; either way the result can only be a valid dense index or
an index no node's child array can contain. -/
def CommandTrie.index (t : CommandTrie) (c : Char) : Nat :=
  t.index_.getD c.toNat 255

/-- Mirror of `CommandTrie::insert` (trie.cpp:50-79): create the root if null,
then run the per-character worker from the root with an empty accumulator. -/
def CommandTrie.insert (t : CommandTrie) (str : List Char) : Except TrieErr CommandTrie :=
  match insertNode t.trie_node_size_ t.index (t.trie_root.getD (createTrieNode t.trie_node_size_)) [] str with
  | .error e => .error e
  | .ok r => .ok { t with trie_root := some r }

/-- The edge-by-edge walk at the top of `CommandTrie::find` (trie.cpp:93-100):
a null child means the search string is not in the trie (`.ok none`, the blank
tuple in the source); an out-of-bounds index is the unchecked
`children[idx]` access. -/
def findLoop (idxOf : Char → Nat) : TrieNode → List Char → Except TrieErr (Option TrieNode)
  | n, [] => .ok (some n)
  | .mk cs _ _, c :: rest =>
    match cs.get? (idxOf c) with
    | none => .error .invalidCharAccess
    | some none => .ok none
    | some (some child) => findLoop idxOf child rest

/-- Mirror of `CommandTrie::find` (trie.cpp:82-112): walk the search string,
then report the longest unambiguous extension; when `ret_pos` is set also
collect all possible commands below the stopping node. -/
def CommandTrie.find (t : CommandTrie) (str : List Char) (ret_pos : Bool) :
    Except TrieErr (Nat × List Char × List (List Char)) :=
  match t.trie_root with
  | none => .ok (0, [], [])
  | some root =>
    match findLoop t.index root str with
    | .error e => .error e
    | .ok none => .ok (0, [], [])
    | .ok (some node) =>
      match getLongestString node with
      | none => .error .corruption
      | some (n_paths, longest_str, last_node) =>
        .ok (n_paths, longest_str, if ret_pos then getPossibleCommands last_node else [])

/-- Insert a list of words in order, stopping at the first fault (each later
word would simply never be reached after the source crashed). -/
def insertAll (t : CommandTrie) : List (List Char) → Except TrieErr CommandTrie
  | [] => .ok t
  | w :: ws =>
    match t.insert w with
    | .error e => .error e
    | .ok t' => insertAll t' ws

/-- The valid-character set the console passes to the trie
(`VALID_COMM_CHARS`, console.cpp:39). -/
def validCommChars : List Char :=
  "0123456789ABCDEFGHIJKLMNOPQRSTUVWXYZabcdefghijklmnopqrstuvwxyz-_".data

deriving instance DecidableEq for Except

/-- Extract the fault of a trie operation, if any. -/
def errOf {a : Type} : Except TrieErr a → Option TrieErr
  | .error e => some e
  | .ok _ => none

/-- The console's completion vocabulary for claim C1's example. -/
def appleTrie : Except TrieErr CommandTrie :=
  insertAll (mkCommandTrie validCommChars) ["apple".data, "append".data, "apply".data]

/-- The query of claim C1: find "app" with the possible commands requested
(this is the spec's `listCompletions`). -/
def appFindResult : Except TrieErr (Nat × List Char × List (List Char)) :=
  match appleTrie with
  | .error e => .error e
  | .ok t => t.find "app".data true

/-- The vocabulary of claim C7's example. -/
def quitTrie : Except TrieErr CommandTrie :=
  insertAll (mkCommandTrie validCommChars) ["quit".data, "quick".data]

/-- Query `str` (without the command listing) against claim C7's vocabulary. -/
def quitFind (str : List Char) : Except TrieErr (Nat × List Char × List (List Char)) :=
  match quitTrie with
  | .error e => .error e
  | .ok t => t.find str false

/-- Mirror of `enum class KeyPressed` (console.h:41-54); the character payload
of a printable key (the `char` in the source's `(KeyPressed, char)` tuple) is
folded into the `alphanum` constructor. -/
inductive KeyPressed where
  | alphanum (c : Char)
  | enter
  | backspace
  | del
  | tab
  | leftarrow
  | rightarrow
  | uparrow
  | downarrow
  | undefined
  | error
deriving DecidableEq

/-- The per-input-line state of `TestConsole::getUserInputLine`
(console.cpp:122-139): the line, the cursor offset, the history browse
position, the saved draft, and the double-tab flag. -/
structure SessionState where
  line : List Char
  cursor_pos : Nat
  history_pos : Nat
  current_line : List Char
  tab_pressed : Bool
deriving DecidableEq

/-- The fresh state at the start of `getUserInputLine` (console.cpp:122-139):
empty line, cursor 0, history position at the end of the history, empty saved
draft, double-tab flag clear. -/
def initState (history : List (List Char)) : SessionState :=
  { line := [], cursor_pos := 0, history_pos := history.length,
    current_line := [], tab_pressed := false }

/-- One dispatch of the `switch` in `getUserInputLine` (console.cpp:159-328)
for a key that neither ends the line nor throws.

`history` is the console's `history_` member (read-only during one input
line); `fnd` abstracts the triple returned by `completion_trie_.find`.
The `enter` and `error` arms are never dispatched here: the driver
`processBatch` below intercepts them first, as the source's loop breaks on
enter before the switch and throws from the error arm. -/
def reactKey (history : List (List Char))
    (fnd : List Char → Bool → Nat × List Char × List (List Char))
    (s : SessionState) : KeyPressed → SessionState
  | .alphanum c =>
      if s.cursor_pos ≠ s.line.length then
        { s with line := s.line.take s.cursor_pos ++ c :: s.line.drop s.cursor_pos,
                 cursor_pos := s.cursor_pos + 1 }
      else
        { s with line := s.line ++ [c], cursor_pos := s.cursor_pos + 1 }
    | .backspace =>
      if s.line ≠ [] ∧ s.cursor_pos ≠ 0 then
        if s.cursor_pos ≠ s.line.length then
          { s with line := s.line.take (s.cursor_pos - 1) ++ s.line.drop s.cursor_pos,
                   cursor_pos := s.cursor_pos - 1 }
        else
          { s with line := s.line.dropLast, cursor_pos := s.cursor_pos - 1 }
      else s
    | .leftarrow =>
      if s.cursor_pos > 0 then { s with cursor_pos := s.cursor_pos - 1 } else s
    | .rightarrow =>
      if s.cursor_pos ≠ s.line.length then { s with cursor_pos := s.cursor_pos + 1 } else s
    | .uparrow =>
      let cur := if s.history_pos = history.length then s.line else s.current_line
      if s.history_pos ≠ 0 then
        let nl := history.getD (s.history_pos - 1) []
        { s with current_line := cur, history_pos := s.history_pos - 1,
                 line := nl, cursor_pos := nl.length }
      else
        { s with current_line := cur }
    | .downarrow =>
      if s.history_pos ≠ history.length then
        let nl := if s.history_pos + 1 = history.length then s.current_line
                  else history.getD (s.history_pos + 1) []
        { s with history_pos := s.history_pos + 1, line := nl, cursor_pos := nl.length }
      else s
    | .del =>
      if s.cursor_pos ≠ s.line.length then
        { s with line := s.line.take s.cursor_pos ++ s.line.drop (s.cursor_pos + 1) }
      else s
    | .tab =>
      let r := fnd s.line s.tab_pressed
      if s.tab_pressed then
        { s with tab_pressed := false }
      else if r.1 > 0 ∧ r.2.1 ≠ s.line then
        { s with line := r.2.1, cursor_pos := r.2.1.length }
      else
        { s with tab_pressed := true }
    | .enter => s
    | .error => s
    | .undefined => s

/-- One fully processed key event: the dispatch above followed by the
clear-the-tab-flag-on-any-other-key step (console.cpp:327-328). -/
def processKey (history : List (List Char))
    (fnd : List Char → Bool → Nat × List Char × List (List Char))
    (s : SessionState) (k : KeyPressed) : SessionState :=
  match k with
  | .tab => reactKey history fnd s .tab
  | _ => { reactKey history fnd s k with tab_pressed := false }

/-- Outcome of the inner `for` loop over one batch of key presses
(console.cpp:144-329). -/
inductive BatchResult where
  | more (s : SessionState)
  | done (line : List Char)
  | failed
deriving DecidableEq

/-- The inner `for` loop over one batch returned by `getKeyPresses`
(console.cpp:143-329): `enter` breaks out and the line as it stands is what
`getUserInputLine` returns; the `error` classification throws
(console.cpp:319-321); every other key is dispatched and processing
continues with the rest of the batch. -/
def processBatch (history : List (List Char))
    (fnd : List Char → Bool → Nat × List Char × List (List Char))
    (s : SessionState) : List KeyPressed → BatchResult
  | [] => .more s
  | k :: rest =>
    match k with
    | .enter => .done s.line
    | .error => .failed
    | _ => processBatch history fnd (processKey history fnd s k) rest

/-- Result of running `getUserInputLine` against a finite supply of key-press
batches. -/
inductive SessionResult where
  | finished (line : List Char)
  | aborted
  | awaiting (s : SessionState)
deriving DecidableEq

/-- The outer `while` loop of `getUserInputLine` (console.cpp:141-335): fetch
a batch, process it, and repeat until an enter ends the line (`finished`) or
the error classification's throw propagates to the caller (`aborted`).  When
the supplied batches run out without either, the real loop would block for
more input (`awaiting`). -/
def runSession (history : List (List Char))
    (fnd : List Char → Bool → Nat × List Char × List (List Char))
    (s : SessionState) : List (List KeyPressed) → SessionResult
  | [] => .awaiting s
  | b :: bs =>
    match processBatch history fnd s b with
    | .more s' => runSession history fnd s' bs
    | .done l => .finished l
    | .failed => .aborted

/-- Mirror of the history recording in `TestConsole::start`
(console.cpp:108-110): append the completed line unless it is empty or equal
to the most recent entry. -/
def recordHistory (h : List (List Char)) (input : List Char) : List (List Char) :=
  if input ≠ [] ∧ (h = [] ∨ h.getLast? ≠ some input) then h ++ [input] else h

/-- A completion collaborator that never matches: the triple
`completion_trie_.find` returns on an empty trie (the blank tuple). -/
def noMatchFind : List Char → Bool → Nat × List Char × List (List Char) :=
  fun _ _ => (0, [], [])

mutual

/-- Executable form of the spec's structural invariant on one node: a node
with zero live children must be terminal, recursively at every node of the
subtree. -/
def nodeWFb : TrieNode → Bool
  | .mk cs t _ => (!(getLiveChildren cs).isEmpty || t) && childrenWFb cs

/-- The invariant checker folded over the live children. -/
def childrenWFb : List (Option TrieNode) → Bool
  | [] => true
  | none :: rest => childrenWFb rest
  | some n :: rest => nodeWFb n && childrenWFb rest

end

/-- The structural invariant on a whole trie: an empty trie is fine, otherwise
every node reachable from the root satisfies the node invariant. -/
def trieWFb (t : CommandTrie) : Bool :=
  match t.trie_root with
  | none => true
  | some r => nodeWFb r

/-- The invariant checked on the trie produced by a sequence of insert calls
(vacuously true when the sequence faulted, since the source would have crashed
before producing a trie). -/
def builtTrieWF (valid : List Char) (ws : List (List Char)) : Bool :=
  match insertAll (mkCommandTrie valid) ws with
  | .error _ => true
  | .ok t => trieWFb t

/-- Run `find` on the trie produced by a sequence of insert calls, propagating
any insertion fault. -/
def findAfterInserts (valid : List Char) (ws : List (List Char)) (str : List Char)
    (b : Bool) : Except TrieErr (Nat × List Char × List (List Char)) :=
  match insertAll (mkCommandTrie valid) ws with
  | .error e => .error e
  | .ok t => t.find str b

/-- Proof-side form of the structural invariant, set up so that induction over
it provides an induction hypothesis for every live child. -/
inductive NodeWF : TrieNode → Prop where
  | intro : ∀ (cs : List (Option TrieNode)) (t : Bool) (w : List Char),
      (getLiveChildren cs = [] → t = true) →
      (∀ n, some n ∈ cs → NodeWF n) →
      NodeWF (.mk cs t w)

/-- Claim C1 (counterexample): with vocabulary {"apple","append","apply"} in an
otherwise empty trie, the query for "app" reports 2 candidates — the number of
live children ('e' and 'l') at the ambiguity node, as `getLongestString`
counts live children, not words — so the claimed candidate count 3 is false.
The completion list is exactly the three words, in alphabet-index order
("append" before "apple" before "apply", since 'e' has a smaller index than
'l'). -/
theorem c1_count_counterexample :
    appFindResult = .ok (2, "app".data, ["append".data, "apple".data, "apply".data]) ∧
      appFindResult ≠ .ok (3, "app".data, ["append".data, "apple".data, "apply".data]) := by
  constructor
  · decide
  · decide

/-- Claim C1 (amended): with vocabulary {"apple","append","apply"} in an
otherwise empty trie, querying "app" returns candidate count 2 (the live
children 'l' and 'e' of the ambiguity node), extension "app", and the
completion list exactly {"apple","append","apply"} in alphabet-index order,
namely "append", "apple", "apply". -/
theorem c1_amended_query :
    appFindResult = .ok (2, "app".data, ["append".data, "apple".data, "apply".data]) := by
  decide

/-- Claim C2 (code evaluated at the failing input): inserting "hi!" — whose
character '!' maps to the sentinel index 255 — does not report an
InvalidCharacter condition to the caller; the execution reaches the unchecked
out-of-bounds `children[255]` access (undefined behaviour in the source,
which has no validity check and cannot throw the documented
`std::out_of_range`). -/
theorem c2_insert_invalid_char_oob :
    errOf ((mkCommandTrie validCommChars).insert "hi!".data) = some TrieErr.invalidCharAccess := by
  decide

/-- Claim C6: recording "a", "b", "b" yields the history ["a","b"] (the
duplicate and any empty line are suppressed), and from a fresh empty input
line with that history, up yields "b", up again yields "a", down yields "b",
and one more down restores the saved empty draft. -/
theorem c6_history_behaviour :
    recordHistory (recordHistory (recordHistory [] "a".data) "b".data) "b".data
        = ["a".data, "b".data] ∧
      (List.foldl (processKey ["a".data, "b".data] noMatchFind)
        (initState ["a".data, "b".data]) [.uparrow]).line = "b".data ∧
      (List.foldl (processKey ["a".data, "b".data] noMatchFind)
        (initState ["a".data, "b".data]) [.uparrow, .uparrow]).line = "a".data ∧
      (List.foldl (processKey ["a".data, "b".data] noMatchFind)
        (initState ["a".data, "b".data]) [.uparrow, .uparrow, .downarrow]).line = "b".data ∧
      (List.foldl (processKey ["a".data, "b".data] noMatchFind)
        (initState ["a".data, "b".data]) [.uparrow, .uparrow, .downarrow, .downarrow]).line
        = [] := by
  decide

/-- Claim C7: when the walk or the unambiguous descent reaches a terminal
node, `getLongestString` stops there with candidate count 1 and that node's
cached word — whatever its live children are; concretely, with vocabulary
{"quit","quick"}, querying "quit" yields count 1 and extension "quit", and
querying "qui" yields count 2 and extension "qui" (ambiguous between 't' and
'c'). -/
theorem c7_terminal_stop :
    (∀ n : TrieNode, n.is_terminal = true →
        getLongestString n = some (1, n.word_to_here, n)) ∧
      quitFind "quit".data = .ok (1, "quit".data, []) ∧
      quitFind "qui".data = .ok (2, "qui".data, []) := by
  refine ⟨?_, by decide, by decide⟩
  intro n h
  cases n with
  | mk cs t w =>
    simp only [TrieNode.is_terminal] at h
    subst h
    simp [getLongestString, TrieNode.word_to_here]

/-- Witness for claim C7's theorem at a concrete terminal node that does have
a live child: the descent still stops and reports this node. -/
theorem c7_terminal_stop_witness :
    getLongestString (TrieNode.mk [some (createTrieNode 1)] true "quit".data)
      = some (1, "quit".data, TrieNode.mk [some (createTrieNode 1)] true "quit".data) :=
  c7_terminal_stop.1 (TrieNode.mk [some (createTrieNode 1)] true "quit".data) rfl

/-- A decode-error key event reached inside a batch makes the whole batch
fail, whatever follows it. -/
theorem processBatch_error_failed (history : List (List Char))
    (fnd : List Char → Bool → Nat × List Char × List (List Char))
    (pre post : List KeyPressed) :
    ∀ s : SessionState, KeyPressed.enter ∉ pre →
      processBatch history fnd s (pre ++ KeyPressed.error :: post) = .failed := by
  induction pre with
  | nil => intro s _; rfl
  | cons k rest ih =>
    intro s hpre
    have hk : k ≠ KeyPressed.enter := fun h => hpre (h ▸ List.mem_cons_self k _)
    have hrest : KeyPressed.enter ∉ rest := fun h => hpre (List.mem_cons_of_mem k h)
    cases k with
    | enter => exact absurd rfl hk
    | error => rfl
    | alphanum c => exact ih _ hrest
    | backspace => exact ih _ hrest
    | del => exact ih _ hrest
    | tab => exact ih _ hrest
    | leftarrow => exact ih _ hrest
    | rightarrow => exact ih _ hrest
    | uparrow => exact ih _ hrest
    | downarrow => exact ih _ hrest
    | undefined => exact ih _ hrest

/-- Claim C9: when a key event classified as a decode error is processed (no
enter came before it in the batch), the batch fails, and the failure
propagates out of the whole read-line session as an abort — no completed line
is returned for that input line. -/
theorem c9_decode_error_aborts (history : List (List Char))
    (fnd : List Char → Bool → Nat × List Char × List (List Char))
    (s : SessionState) (pre post : List KeyPressed) (bs : List (List KeyPressed))
    (hpre : KeyPressed.enter ∉ pre) :
    processBatch history fnd s (pre ++ KeyPressed.error :: post) = .failed ∧
      runSession history fnd s ((pre ++ KeyPressed.error :: post) :: bs) = .aborted := by
  have h := processBatch_error_failed history fnd pre post s hpre
  exact ⟨h, by simp [runSession, h]⟩

/-- Witness for claim C9's theorem: a batch holding a printable 'x', then the
decode error, then an enter aborts the session instead of completing a
line. -/
theorem c9_decode_error_aborts_witness :
    processBatch [] noMatchFind (initState [])
        ([KeyPressed.alphanum 'x'] ++ KeyPressed.error :: [KeyPressed.enter]) = .failed ∧
      runSession [] noMatchFind (initState [])
        (([KeyPressed.alphanum 'x'] ++ KeyPressed.error :: [KeyPressed.enter]) :: []) = .aborted :=
  c9_decode_error_aborts [] noMatchFind (initState [])
    [KeyPressed.alphanum 'x'] [KeyPressed.enter] [] (by decide)

/-- Claim C10 (counterexample): a batch may contain an enter classification
and still complete no line — a decode error earlier in the same batch aborts
the session first, so the claim as stated (any batch containing an enter
returns the line as it stood at that enter) is false. -/
theorem c10_error_before_enter_counterexample :
    processBatch [] noMatchFind (initState []) [KeyPressed.error, KeyPressed.enter] = .failed ∧
      runSession [] noMatchFind (initState []) [[KeyPressed.error, KeyPressed.enter]] = .aborted ∧
      BatchResult.failed ≠ BatchResult.done [] := by
  refine ⟨rfl, rfl, by decide⟩

/-- Claim C10 (amended): if a batch contains an enter classification and
neither an enter nor a decode error precedes it in the batch, the session
processes the batch strictly in order up to that enter, discards every event
after it, and finishes with the line exactly as it stood when the enter was
processed. -/
theorem c10_enter_truncates_batch (history : List (List Char))
    (fnd : List Char → Bool → Nat × List Char × List (List Char))
    (s : SessionState) (pre post : List KeyPressed)
    (h1 : KeyPressed.enter ∉ pre) (h2 : KeyPressed.error ∉ pre) :
    processBatch history fnd s (pre ++ KeyPressed.enter :: post)
      = .done ((List.foldl (processKey history fnd) s pre).line) := by
  induction pre generalizing s with
  | nil => rfl
  | cons k rest ih =>
    have hk1 : k ≠ KeyPressed.enter := fun h => h1 (h ▸ List.mem_cons_self k _)
    have hk2 : k ≠ KeyPressed.error := fun h => h2 (h ▸ List.mem_cons_self k _)
    have hr1 : KeyPressed.enter ∉ rest := fun h => h1 (List.mem_cons_of_mem k h)
    have hr2 : KeyPressed.error ∉ rest := fun h => h2 (List.mem_cons_of_mem k h)
    cases k with
    | enter => exact absurd rfl hk1
    | error => exact absurd rfl hk2
    | alphanum c => exact ih _ hr1 hr2
    | backspace => exact ih _ hr1 hr2
    | del => exact ih _ hr1 hr2
    | tab => exact ih _ hr1 hr2
    | leftarrow => exact ih _ hr1 hr2
    | rightarrow => exact ih _ hr1 hr2
    | uparrow => exact ih _ hr1 hr2
    | downarrow => exact ih _ hr1 hr2
    | undefined => exact ih _ hr1 hr2

/-- Witness for claim C10's theorem: the batch ['a', enter, 'z'] completes the
line "a"; the trailing 'z' is discarded. -/
theorem c10_enter_truncates_batch_witness :
    processBatch [] noMatchFind (initState [])
        ([KeyPressed.alphanum 'a'] ++ KeyPressed.enter :: [KeyPressed.alphanum 'z'])
      = .done ((List.foldl (processKey [] noMatchFind) (initState [])
          [KeyPressed.alphanum 'a']).line) :=
  c10_enter_truncates_batch [] noMatchFind (initState [])
    [KeyPressed.alphanum 'a'] [KeyPressed.alphanum 'z'] (by decide) (by decide)

/-- Claim C3 (counterexample): a second consecutive tab performs no line
replacement (it only lists completions — here none match), yet it clears the
double-tab flag, so "the flag is set iff the event was a tab press that
performed no line replacement" is false after that second tab. -/
theorem c3_flag_iff_counterexample :
    (processKey [] noMatchFind (initState []) KeyPressed.tab).tab_pressed = true ∧
      (processKey [] noMatchFind
          (processKey [] noMatchFind (initState []) KeyPressed.tab)
          KeyPressed.tab).line
        = (processKey [] noMatchFind (initState []) KeyPressed.tab).line ∧
      (processKey [] noMatchFind
          (processKey [] noMatchFind (initState []) KeyPressed.tab)
          KeyPressed.tab).tab_pressed = false := by
  decide

/-- Claim C3 (amended): for every processed key event other than the
enter/error classifications (which end the line or abort before any flag
update), the double-tab flag is set afterwards iff the event was a tab press
that arrived with the flag clear and performed no line replacement; moreover a
first tab whose query yields at least one candidate and an extension
differing from the line replaces the line (cursor at its end) and leaves the
flag clear, a tab arriving with the flag set only clears the flag, and every
non-tab key event leaves the flag clear. -/
theorem c3_tab_flag_protocol (history : List (List Char))
    (fnd : List Char → Bool → Nat × List Char × List (List Char))
    (s : SessionState) (k : KeyPressed)
    (hk1 : k ≠ KeyPressed.enter) (hk2 : k ≠ KeyPressed.error) :
    ((processKey history fnd s k).tab_pressed = true ↔
        (k = KeyPressed.tab ∧ s.tab_pressed = false ∧
          ¬((fnd s.line false).1 > 0 ∧ (fnd s.line false).2.1 ≠ s.line))) ∧
      (k = KeyPressed.tab → s.tab_pressed = false → (fnd s.line false).1 > 0 →
        (fnd s.line false).2.1 ≠ s.line →
        (processKey history fnd s k).line = (fnd s.line false).2.1 ∧
          (processKey history fnd s k).cursor_pos = (fnd s.line false).2.1.length ∧
          (processKey history fnd s k).tab_pressed = false) ∧
      (k = KeyPressed.tab → s.tab_pressed = true →
        processKey history fnd s k = { s with tab_pressed := false }) ∧
      (k ≠ KeyPressed.tab → (processKey history fnd s k).tab_pressed = false) := by
  cases k with
  | tab =>
    by_cases ht : s.tab_pressed
    · simp [processKey, reactKey, ht]
    · simp only [Bool.not_eq_true] at ht
      by_cases hc : (fnd s.line false).1 > 0 ∧ (fnd s.line false).2.1 ≠ s.line
      · simp [processKey, reactKey, ht, hc]
      · simp [processKey, reactKey, ht, hc]
        intro h1
        by_contra h2
        exact hc ⟨h1, h2⟩
  | enter => exact absurd rfl hk1
  | error => exact absurd rfl hk2
  | alphanum c => simp [processKey]
  | backspace => simp [processKey]
  | del => simp [processKey]
  | leftarrow => simp [processKey]
  | rightarrow => simp [processKey]
  | uparrow => simp [processKey]
  | downarrow => simp [processKey]
  | undefined => simp [processKey]

/-- Witness for claim C3's theorem: the flag characterization instantiated for
a first tab on an empty line against the no-match completer. -/
theorem c3_tab_flag_protocol_witness :
    (processKey [] noMatchFind (initState []) KeyPressed.tab).tab_pressed = true ↔
      (KeyPressed.tab = KeyPressed.tab ∧ (initState []).tab_pressed = false ∧
        ¬((noMatchFind (initState []).line false).1 > 0 ∧
          (noMatchFind (initState []).line false).2.1 ≠ (initState []).line)) :=
  (c3_tab_flag_protocol [] noMatchFind (initState []) KeyPressed.tab
    (by decide) (by decide)).1

/-- The switch of `getUserInputLine` keeps the cursor within the line. -/
theorem reactKey_cursor_le (history : List (List Char))
    (fnd : List Char → Bool → Nat × List Char × List (List Char))
    (s : SessionState) (k : KeyPressed) (h : s.cursor_pos ≤ s.line.length) :
    (reactKey history fnd s k).cursor_pos ≤ (reactKey history fnd s k).line.length := by
  cases k with
  | alphanum c =>
    simp only [reactKey]
    split_ifs with hc <;>
      simp [List.length_append, List.length_take, List.length_drop] <;> omega
  | backspace =>
    have hp : s.line ≠ [] → 0 < s.line.length := fun hne => List.length_pos.mpr hne
    simp only [reactKey]
    split_ifs with hc hm
    · have := hp hc.1
      simp [List.length_append, List.length_take, List.length_drop]
      omega
    · simp [List.length_dropLast]
      omega
    · exact h
  | leftarrow =>
    simp only [reactKey]
    split_ifs with hc
    · simp; omega
    · exact h
  | rightarrow =>
    simp only [reactKey]
    split_ifs with hc
    · simp; omega
    · exact h
  | uparrow =>
    simp only [reactKey]
    split_ifs with hc <;> simp [h]
  | downarrow =>
    simp only [reactKey]
    split_ifs with hc <;> simp [h]
  | del =>
    simp only [reactKey]
    split_ifs with hc
    · simp [List.length_append, List.length_take, List.length_drop]
      omega
    · exact h
  | tab =>
    simp only [reactKey]
    split_ifs with hc hr <;> simp [h]
  | enter => exact h
  | error => exact h
  | undefined => exact h

/-- A fully processed key event keeps the cursor within the line (the
trailing flag clear touches neither cursor nor line). -/
theorem processKey_cursor_le (history : List (List Char))
    (fnd : List Char → Bool → Nat × List Char × List (List Char))
    (s : SessionState) (k : KeyPressed) (h : s.cursor_pos ≤ s.line.length) :
    (processKey history fnd s k).cursor_pos ≤ (processKey history fnd s k).line.length := by
  have hr := reactKey_cursor_le history fnd s k h
  cases k <;> simpa [processKey] using hr

/-- Claim C4: for every sequence of key events processed within one input line
(printable inserts, backspace, delete, left/right moves, history navigation,
tab completion, and the ignored classifications), the invariant
0 ≤ cursor ≤ length(line) holds after every operation — stated for an
arbitrary starting state already satisfying it, so it covers every
intermediate point of every session. -/
theorem c4_cursor_invariant (history : List (List Char))
    (fnd : List Char → Bool → Nat × List Char × List (List Char))
    (s : SessionState) (ks : List KeyPressed) (h : s.cursor_pos ≤ s.line.length) :
    0 ≤ (List.foldl (processKey history fnd) s ks).cursor_pos ∧
      (List.foldl (processKey history fnd) s ks).cursor_pos
        ≤ (List.foldl (processKey history fnd) s ks).line.length := by
  refine ⟨Nat.zero_le _, ?_⟩
  induction ks generalizing s with
  | nil => simpa using h
  | cons k rest ih => exact ih (processKey history fnd s k) (processKey_cursor_le history fnd s k h)

/-- Witness for claim C4's theorem: one printable 'a' typed from the fresh
empty state. -/
theorem c4_cursor_invariant_witness :
    0 ≤ (List.foldl (processKey [] noMatchFind) (initState []) [KeyPressed.alphanum 'a']).cursor_pos ∧
      (List.foldl (processKey [] noMatchFind) (initState []) [KeyPressed.alphanum 'a']).cursor_pos
        ≤ (List.foldl (processKey [] noMatchFind) (initState []) [KeyPressed.alphanum 'a']).line.length :=
  c4_cursor_invariant [] noMatchFind (initState []) [KeyPressed.alphanum 'a'] (by decide)

/-- Re-running the insert worker on its own output changes nothing: the
second pass finds every child present and rewrites the same `word_to_here`
and terminal flag values. -/
theorem insertNode_idem (K : Nat) (idxOf : Char → Nat) :
    ∀ (w : List Char) (node : TrieNode) (here : List Char) (res : TrieNode),
      insertNode K idxOf node here w = .ok res →
      insertNode K idxOf res here w = .ok res := by
  intro w
  induction w with
  | nil =>
    intro node here res h
    cases node with
    | mk cs t x =>
      simp only [insertNode] at h
      cases h
      simp [insertNode]
  | cons c rest ih =>
    intro node here res h
    cases node with
    | mk cs t x =>
      simp only [insertNode] at h
      split at h
      next => simp at h
      next och hg =>
        split at h
        next e hi => simp at h
        next newChild hi =>
          simp only [Except.ok.injEq] at h
          subst h
          obtain ⟨hlt, -⟩ := List.get?_eq_some.mp hg
          have hset : (cs.set (idxOf c) (some newChild)).get? (idxOf c) = some (some newChild) :=
            List.get?_set_eq_of_lt _ hlt
          simp only [insertNode, hset, Option.getD_some, ih _ _ _ hi, List.set_set]

/-- Inserting a word into the trie a second time returns the very same
trie. -/
theorem insert_ok_idem (t : CommandTrie) (w : List Char) (u : CommandTrie)
    (h : t.insert w = .ok u) : u.insert w = .ok u := by
  unfold CommandTrie.insert at h
  cases hi : insertNode t.trie_node_size_ t.index
      (t.trie_root.getD (createTrieNode t.trie_node_size_)) [] w with
  | error e => rw [hi] at h; simp at h
  | ok r =>
    rw [hi] at h
    simp only [Except.ok.injEq] at h
    subst h
    unfold CommandTrie.insert
    simp only [Option.getD_some]
    have hidx : CommandTrie.index { t with trie_root := some r } = t.index := rfl
    rw [hidx, insertNode_idem _ _ w _ [] r hi]

/-- Claim C8: trie insertion is idempotent — for every trie state and every
word, inserting the word twice produces exactly the trie of inserting it
once (the same fault if the word has an invalid character), so every query
(candidate count, extension, completion list, for every search string)
agrees after one and after two insertions. -/
theorem c8_insert_idempotent (t : CommandTrie) (w str : List Char) (b : Bool) :
    Except.bind (t.insert w) (fun u => u.insert w) = t.insert w ∧
      Except.bind (Except.bind (t.insert w) (fun u => u.insert w)) (fun u => u.find str b)
        = Except.bind (t.insert w) (fun u => u.find str b) := by
  have h1 : Except.bind (t.insert w) (fun u => u.insert w) = t.insert w := by
    cases h : t.insert w with
    | error e => rfl
    | ok u => simpa [Except.bind] using insert_ok_idem t w u h
  exact ⟨h1, by rw [h1]⟩

/-- A member of the live-children list is a populated slot of the child
array. -/
theorem mem_of_mem_getLiveChildren {cs : List (Option TrieNode)} {n : TrieNode}
    (h : n ∈ getLiveChildren cs) : some n ∈ cs := by
  simp only [getLiveChildren, List.mem_filterMap, id_eq] at h
  obtain ⟨o, ho, rfl⟩ := h
  exact ho

/-- The descent helper follows exactly the head of the live-children list. -/
theorem glsDescend_eq_head : ∀ (cs : List (Option TrieNode)) (n : TrieNode)
    (tl : List TrieNode), getLiveChildren cs = n :: tl →
    glsDescend cs = getLongestString n := by
  intro cs
  induction cs with
  | nil => intro n tl h; simp [getLiveChildren] at h
  | cons o rest ih =>
    intro n tl h
    cases o with
    | none =>
      simp only [getLiveChildren, List.filterMap_cons_none] at h
      exact ih n tl h
    | some m =>
      simp only [getLiveChildren, List.filterMap_cons_some, id_eq] at h
      cases h
      rfl

/-- On a node satisfying the structural invariant, `getLongestString` always
returns a value: the corruption branch is unreachable. -/
theorem gls_isSome_of_wf : ∀ n : TrieNode, NodeWF n → (getLongestString n).isSome := by
  intro n h
  induction h with
  | intro cs t w hleaf hch ih =>
    by_cases ht : t = true
    · simp [getLongestString, ht]
    · simp only [Bool.not_eq_true] at ht
      cases hl : getLiveChildren cs with
      | nil => rw [hleaf hl] at ht; cases ht
      | cons n0 tl =>
        have hmem : some n0 ∈ cs :=
          mem_of_mem_getLiveChildren (hl ▸ List.mem_cons_self n0 tl)
        have h0 := ih n0 hmem
        by_cases htl : tl = []
        · subst htl
          simp [getLongestString, ht, hl, glsDescend_eq_head cs n0 [] hl, h0]
        · have htl' : tl.length ≠ 0 := fun he => htl (List.length_eq_zero.mp he)
          simp [getLongestString, ht, hl, htl']

/-- The insert worker keeps the structural invariant: provided every live
child of the entry node is well-formed, the node it returns is
well-formed. -/
theorem insertNode_wf (K : Nat) (idxOf : Char → Nat) :
    ∀ (w : List Char) (cs : List (Option TrieNode)) (t : Bool) (x here : List Char)
      (res : TrieNode),
      (∀ n, some n ∈ cs → NodeWF n) →
      insertNode K idxOf (.mk cs t x) here w = .ok res → NodeWF res := by
  intro w
  induction w with
  | nil =>
    intro cs t x here res hch h
    simp only [insertNode] at h
    cases h
    exact NodeWF.intro cs true here (fun _ => rfl) hch
  | cons c rest ih =>
    intro cs t x here res hch h
    simp only [insertNode] at h
    split at h
    next => simp at h
    next och hg =>
      split at h
      next e hi => simp at h
      next newChild hi =>
        simp only [Except.ok.injEq] at h
        subst h
        have hcwf : NodeWF newChild := by
          cases och with
          | none =>
            have hvac : ∀ n, some n ∈ (List.replicate K (none : Option TrieNode)) → NodeWF n := by
              intro n hn
              have := List.eq_of_mem_replicate hn
              simp at this
            exact ih _ _ _ _ _ hvac (by simpa [createTrieNode] using hi)
          | some ch =>
            have hwf : NodeWF ch := hch ch (List.get?_mem hg)
            cases hwf with
            | intro ccs ct cw hcl hcc =>
              exact ih _ _ _ _ _ hcc (by simpa using hi)
        obtain ⟨hlt, -⟩ := List.get?_eq_some.mp hg
        have hmemset : some newChild ∈ cs.set (idxOf c) (some newChild) :=
          List.get?_mem (List.get?_set_eq_of_lt _ hlt)
        refine NodeWF.intro _ t here (fun he => ?_) (fun n hn => ?_)
        · have hlive : newChild ∈ getLiveChildren (cs.set (idxOf c) (some newChild)) := by
            simp only [getLiveChildren]
            exact List.mem_filterMap.mpr ⟨some newChild, hmemset, rfl⟩
          exact absurd he (List.ne_nil_of_mem hlive)
        · rcases List.mem_or_eq_of_mem_set hn with hmem | heq
          · exact hch n hmem
          · injection heq with hn'
            subst hn'
            exact hcwf

/-- One `CommandTrie::insert` call keeps every node reachable from the root
well-formed. -/
theorem insert_root_wf (t : CommandTrie) (w : List Char) (u : CommandTrie)
    (hroot : ∀ r, t.trie_root = some r → NodeWF r)
    (h : t.insert w = .ok u) :
    ∀ r, u.trie_root = some r → NodeWF r := by
  unfold CommandTrie.insert at h
  split at h
  next e hi => simp at h
  next r hi =>
    simp only [Except.ok.injEq] at h
    subst h
    intro r' hr'
    simp only [Option.some.injEq] at hr'
    subst hr'
    cases hrt : t.trie_root with
    | none =>
      rw [hrt] at hi
      simp only [Option.getD_none, createTrieNode] at hi
      refine insertNode_wf _ _ w _ _ _ _ _ ?_ hi
      intro n hn
      have := List.eq_of_mem_replicate hn
      simp at this
    | some r0 =>
      rw [hrt] at hi
      simp only [Option.getD_some] at hi
      have h0 := hroot r0 hrt
      cases h0 with
      | intro cs0 t0 w0 hl0 hc0 =>
        exact insertNode_wf _ _ w _ _ _ _ _ hc0 hi

/-- A whole sequence of insert calls keeps every node reachable from the root
well-formed. -/
theorem insertAll_root_wf : ∀ (ws : List (List Char)) (t : CommandTrie),
    (∀ r, t.trie_root = some r → NodeWF r) →
    ∀ u, insertAll t ws = .ok u → ∀ r, u.trie_root = some r → NodeWF r := by
  intro ws
  induction ws with
  | nil =>
    intro t ht u h
    simp only [insertAll, Except.ok.injEq] at h
    subst h
    exact ht
  | cons w rest ih =>
    intro t ht u h
    simp only [insertAll] at h
    split at h
    next e hw => simp at h
    next t' hw => exact ih t' (insert_root_wf t w t' ht hw) u h

/-- A well-formed node makes the executable invariant checker succeed. -/
theorem nodeWFb_of_wf : ∀ n : TrieNode, NodeWF n → nodeWFb n = true := by
  intro n h
  induction h with
  | intro cs t w hleaf hch ih =>
    have hkids : ∀ ds : List (Option TrieNode), (∀ n, some n ∈ ds → some n ∈ cs) →
        childrenWFb ds = true := by
      intro ds
      induction ds with
      | nil => intro _; rfl
      | cons o rest ihd =>
        intro hsub
        cases o with
        | none =>
          simp only [childrenWFb]
          exact ihd fun n hn => hsub n (List.mem_cons_of_mem _ hn)
        | some m =>
          simp only [childrenWFb, Bool.and_eq_true]
          refine ⟨ih m (hsub m (List.mem_cons_self _ _)), ?_⟩
          exact ihd fun n hn => hsub n (List.mem_cons_of_mem _ hn)
    simp only [nodeWFb, Bool.and_eq_true, Bool.or_eq_true]
    refine ⟨?_, hkids cs (fun _ hn => hn)⟩
    by_cases hl : getLiveChildren cs = []
    · exact Or.inr (hleaf hl)
    · exact Or.inl (by simpa [List.isEmpty_iff] using hl)

/-- The walk of `find` never throws the corruption error. -/
theorem findLoop_not_corruption (idxOf : Char → Nat) :
    ∀ (str : List Char) (n : TrieNode),
      findLoop idxOf n str ≠ .error TrieErr.corruption := by
  intro str
  induction str with
  | nil => intro n; simp [findLoop]
  | cons c rest ih =>
    intro n
    cases n with
    | mk cs t w =>
      simp only [findLoop]
      split
      · simp
      · simp
      · next child hg => exact ih child

/-- The walk of `find` keeps the structural invariant: starting at a
well-formed node, any node it reaches is well-formed. -/
theorem findLoop_wf (idxOf : Char → Nat) :
    ∀ (str : List Char) (n : TrieNode), NodeWF n →
      ∀ n', findLoop idxOf n str = .ok (some n') → NodeWF n' := by
  intro str
  induction str with
  | nil =>
    intro n hn n' h
    simp only [findLoop, Except.ok.injEq, Option.some.injEq] at h
    subst h
    exact hn
  | cons c rest ih =>
    intro n hn n' h
    cases n with
    | mk cs t w =>
      simp only [findLoop] at h
      split at h
      next => simp at h
      next hg => simp at h
      next child hg =>
        have hcwf : NodeWF child := by
          cases hn with
          | intro cs' t' w' hl' hc' => exact hc' child (List.get?_mem hg)
        exact ih child hcwf n' h

/-- The insert worker never produces the corruption error. -/
theorem insertNode_not_corruption (K : Nat) (idxOf : Char → Nat) :
    ∀ (w : List Char) (node : TrieNode) (here : List Char),
      insertNode K idxOf node here w ≠ .error TrieErr.corruption := by
  intro w
  induction w with
  | nil =>
    intro node here
    cases node
    simp [insertNode]
  | cons c rest ih =>
    intro node here
    cases node with
    | mk cs t x =>
      simp only [insertNode]
      split
      · simp
      · next och hg =>
        split
        · next e hi =>
          intro hcontra
          simp only [Except.error.injEq] at hcontra
          subst hcontra
          exact ih _ _ hi
        · simp

/-- `CommandTrie::insert` never raises the corruption error. -/
theorem insert_not_corruption (t : CommandTrie) (w : List Char) :
    t.insert w ≠ .error TrieErr.corruption := by
  unfold CommandTrie.insert
  split
  next e hi =>
    intro hcontra
    simp only [Except.error.injEq] at hcontra
    subst hcontra
    exact insertNode_not_corruption _ _ w _ [] hi
  next r hi => simp

/-- A sequence of insert calls never raises the corruption error. -/
theorem insertAll_not_corruption : ∀ (ws : List (List Char)) (t : CommandTrie),
    insertAll t ws ≠ .error TrieErr.corruption := by
  intro ws
  induction ws with
  | nil => intro t; simp [insertAll]
  | cons w rest ih =>
    intro t
    simp only [insertAll]
    split
    next e hw =>
      intro hcontra
      simp only [Except.error.injEq] at hcontra
      subst hcontra
      exact insert_not_corruption t w hw
    next t' hw => exact ih t'

/-- On a trie whose reachable nodes are all well-formed, `find` never raises
the structural-corruption error. -/
theorem find_no_corruption (t : CommandTrie)
    (hroot : ∀ r, t.trie_root = some r → NodeWF r)
    (str : List Char) (b : Bool) :
    t.find str b ≠ .error TrieErr.corruption := by
  unfold CommandTrie.find
  cases hrt : t.trie_root with
  | none => simp
  | some root =>
    cases hfl : findLoop t.index root str with
    | error e =>
      simp only [hfl]
      intro hcontra
      simp only [Except.error.injEq] at hcontra
      subst hcontra
      exact findLoop_not_corruption _ str root hfl
    | ok o =>
      cases o with
      | none => simp [hfl]
      | some node =>
        have hwf : NodeWF node := findLoop_wf _ str root (hroot root hrt) node hfl
        have hsome := gls_isSome_of_wf node hwf
        cases hgl : getLongestString node with
        | none => rw [hgl] at hsome; simp at hsome
        | some v => simp [hfl, hgl]

/-- Claim C5: on every trie built by a sequence of insert calls, every
reachable node with zero live children is terminal (the executable invariant
checker succeeds), and consequently the StructuralCorruption branch of the
unambiguous-extension descent is unreachable: `find` never raises it,
whatever is searched. -/
theorem c5_no_corruption (valid : List Char) (ws : List (List Char))
    (str : List Char) (b : Bool) :
    builtTrieWF valid ws = true ∧
      findAfterInserts valid ws str b ≠ .error TrieErr.corruption := by
  have hmk : ∀ r, (mkCommandTrie valid).trie_root = some r → NodeWF r := by
    intro r hr
    simp [mkCommandTrie] at hr
  constructor
  · unfold builtTrieWF
    cases h : insertAll (mkCommandTrie valid) ws with
    | error e => rfl
    | ok u =>
      have hu := insertAll_root_wf ws (mkCommandTrie valid) hmk u h
      cases hrt : u.trie_root with
      | none => simp [trieWFb, hrt]
      | some r => simp [trieWFb, hrt, nodeWFb_of_wf r (hu r hrt)]
  · unfold findAfterInserts
    cases h : insertAll (mkCommandTrie valid) ws with
    | error e =>
      intro hcontra
      simp only [Except.error.injEq] at hcontra
      subst hcontra
      exact insertAll_not_corruption ws (mkCommandTrie valid) h
    | ok u =>
      exact find_no_corruption u (insertAll_root_wf ws (mkCommandTrie valid) hmk u h) str b
